import Mathlib

/-!
Shallow embedding of `MEM::memoryPool` from
`src/MemoryManagement/memory_pool.hpp`.

The model fixes the common LP64 platform the header targets:
`alignof(std::max_align_t) = 16`, `sizeof(memoryBlock) = 40`
(size_t + bool + padding + two pointers + size_t), hence
`memoryBlockAlignedSize = 48` and `minimalBlockSize = 48 + 16 = 64`.

The intrusive doubly linked block list living inside the arena is
embedded as a `List MB` in next-chain order; each block carries its
byte offset `off` from the arena base explicitly, mirroring the
pointer value `reinterpret_cast<uint8_t*>(block) - pool`.  The `prev`
pointers are determined by the list order.  The arena bytes are kept
in `mem`; every header-field store of the source is mirrored by
rewriting the (40 struct bytes of the) affected headers, and
`std::memmove` is an overlap-safe copy.  Template parameters
`poolSize`/`maxHandles` appear as explicit `P`/`M` arguments.
-/

namespace MemPool

/-- `alignof(std::max_align_t)` on the modelled platform. -/
def alignment : Nat := 16

/-- `memoryBlockAlignedSize`: `(sizeof(memoryBlock) + 15) & ~15 = 48`. -/
def headerSize : Nat := 48

/-- `sizeof(memoryBlock) = 40`: the bytes actually written by the field
stores of a block header (the remaining 8 bytes up to `headerSize` are
alignment slack that the code never writes). -/
def structSize : Nat := 40

/-- `minimalBlockSize = memoryBlockAlignedSize + alignof(std::max_align_t)`. -/
def minimalBlockSize : Nat := 64

/-- Model address of the `pool` array, used when header stores encode
`next`/`prev` pointers into arena bytes. -/
def poolBase : Nat := 4096

/-- `(n + alignof(std::max_align_t) - 1) & ~(alignof(std::max_align_t) - 1)`. -/
def alignUp (n : Nat) : Nat := (n + 15) / 16 * 16

/-- `n & ~(alignof(std::max_align_t) - 1)`. -/
def maskDown (n : Nat) : Nat := n / 16 * 16

/-- `MEM::memoryPoolErrors`. -/
inductive MPErr where
  | SUCCESS
  | INVALID_HANDLE
  | INVALID_SIZE
  | ALLOCATION_FAILED
  | DOUBLE_FREE_ATTEMPT
  | HANDLE_OVERFLOW
  | HANDLE_TABLE_FULL
  | ALIGNMENT_ERROR
  | UNKNOWN_ERROR
deriving DecidableEq, Repr

/-- A `memoryBlock` header: byte offset of the header inside the arena,
payload size, free flag and owning handle.  The `next`/`prev` pointers
are represented by the position in the surrounding `List MB`. -/
structure MB where
  off : Nat
  size : Nat
  is_free : Bool
  handle : Nat
deriving DecidableEq, Repr

/-- The state of a `memoryPool<poolSize, maxHandles>` object:
the block list (in `next`-chain order), the handle table
(`handleTable[h]` holds the offset of the block the handle maps to),
the free-handle stack (`freeHandles` array plus `freeHandleCount`),
and the raw arena bytes. -/
structure PoolState where
  blocks : List MB
  handleTable : List (Option Nat)
  freeHandles : List Nat
  freeHandleCount : Nat
  mem : List Nat
deriving DecidableEq, Repr

/-- Little-endian bytes of a 64-bit field store. -/
def le8 (n : Nat) : List Nat :=
  [n % 256, n / 256 % 256, n / 65536 % 256, n / 16777216 % 256,
   n / 4294967296 % 256, n / 1099511627776 % 256,
   n / 281474976710656 % 256, n / 72057594037927936 % 256]

/-- Byte value of a `memoryBlock*` pointer: null or arena base plus offset. -/
def ptrVal : Option Nat → Nat
  | none => 0
  | some o => poolBase + o

/-- The 40 struct bytes a full header store writes:
`size`, `is_free` (with padding modelled as zero), `next`, `prev`, `handle`. -/
def encodeHeader (size : Nat) (fr : Bool) (next prev : Option Nat) (h : Nat) : List Nat :=
  le8 size ++ ((if fr then 1 else 0) :: [0, 0, 0, 0, 0, 0, 0])
    ++ le8 (ptrVal next) ++ le8 (ptrVal prev) ++ le8 h

/-- Overwrite `d.length` bytes of `m` starting at byte `p`. -/
def writeAt (m : List Nat) (p : Nat) (d : List Nat) : List Nat :=
  m.enum.map (fun q => if p ≤ q.1 ∧ q.1 < p + d.length then d.getD (q.1 - p) 0 else q.2)

/-- Read `n` bytes of `m` starting at byte `p`. -/
def sliceAt (m : List Nat) (p n : Nat) : List Nat := (m.drop p).take n

/-- `std::memmove(m + dst, m + src, n)`: overlap-safe copy. -/
def copyAt (m : List Nat) (dst src n : Nat) : List Nat :=
  writeAt m dst (sliceAt m src n)

/-- The header stores for a block list: each block's header bytes at its
offset, with `next`/`prev` pointer fields taken from the list order. -/
def headerWrites : Option Nat → List MB → List (Nat × List Nat)
  | _, [] => []
  | pv, b :: bs =>
      (b.off, encodeHeader b.size b.is_free ((bs.head?).map (fun x => x.off)) pv b.handle)
        :: headerWrites (some b.off) bs

/-- Rewrite every header of `bs` into the arena bytes.  The source updates
only the fields that change; since unchanged fields are rewritten with
their current values this produces the identical bytes. -/
def syncHeaders (m : List Nat) (bs : List MB) : List Nat :=
  (headerWrites none bs).foldl (fun acc w => writeAt acc w.1 w.2) m

/-- The constructor `memoryPool()`: one giant free block, a full
free-handle stack `freeHandles[i] = maxHandles - i - 1`, an empty
handle table.  (Arena bytes outside the head header are indeterminate
in C++; the model takes them to be zero.) -/
def initState (P M : Nat) : PoolState :=
  let bs : List MB := [⟨0, P - headerSize, true, 0⟩]
  { blocks := bs
    handleTable := List.replicate M none
    freeHandles := (List.range M).map (fun i => M - i - 1)
    freeHandleCount := M
    mem := syncHeaders (List.replicate P 0) bs }

/-- The `while` loop of `alloc`: walk the chain for the first free block
with `size ≤ block.size`, returning the blocks walked past, the hit,
and the tail. -/
def findFit (sz : Nat) : List MB → Option (List MB × MB × List MB)
  | [] => none
  | b :: bs =>
      if b.is_free = true ∧ sz ≤ b.size then some ([], b, bs)
      else (findFit sz bs).map (fun r => (b :: r.1, r.2.1, r.2.2))

/-- The block(s) that replace the chosen free block in `alloc`: either a
split into the claimed front part and a new free remainder (when the
block can hold the request plus a header plus a minimal block), or the
whole block claimed as-is. -/
def allocMid (sz : Nat) (cur : MB) : List MB :=
  if sz + headerSize + minimalBlockSize ≤ cur.size then
    [{ cur with size := sz, is_free := false },
     ⟨cur.off + headerSize + sz, cur.size - (sz + headerSize), true, 0⟩]
  else
    [{ cur with is_free := false }]

/-- `current->handle = handle`: stamp the handle on the claimed block. -/
def setHandle (h : Nat) : List MB → List MB
  | c :: t => { c with handle := h } :: t
  | [] => []

/-- `memoryPool::alloc(size, outHandle)`.  Returns the error code, the
written out-handle, and the state after the call.  Mirrors the source
order: the split and the `is_free = false` store happen before the
free-handle check, so `HANDLE_TABLE_FULL` leaves the block claimed. -/
def alloc (P : Nat) (s : PoolState) (size : Nat) : MPErr × Option Nat × PoolState :=
  if size = 0 ∨ P - headerSize < size then (.INVALID_SIZE, none, s)
  else
    match findFit (alignUp size) s.blocks with
    | none => (.ALLOCATION_FAILED, none, s)
    | some (pre, cur, rest) =>
        if s.freeHandleCount = 0 then
          let bs := pre ++ allocMid (alignUp size) cur ++ rest
          (.HANDLE_TABLE_FULL, none, { s with blocks := bs, mem := syncHeaders s.mem bs })
        else
          let h := s.freeHandles.getD (s.freeHandleCount - 1) 0
          let bs := pre ++ setHandle h (allocMid (alignUp size) cur) ++ rest
          (.SUCCESS, some h,
            { blocks := bs
              handleTable := s.handleTable.set h (some cur.off)
              freeHandles := s.freeHandles
              freeHandleCount := s.freeHandleCount - 1
              mem := syncHeaders s.mem bs })

/-- Locate the block whose header sits at offset `o` (the dereference of
the `memoryBlock*` stored in the handle table). -/
def findByOff (o : Nat) : List MB → Option (List MB × MB × List MB)
  | [] => none
  | b :: bs =>
      if b.off = o then some ([], b, bs)
      else (findByOff o bs).map (fun r => (b :: r.1, r.2.1, r.2.2))

/-- `free`'s coalescing with the next block: if the block after the
freed one is free, absorb it (its header becoming payload bytes). -/
def coalesceNext (b1 : MB) (rest : List MB) : MB × List MB :=
  match rest with
  | n :: r2 =>
      if n.is_free then ({ b1 with size := b1.size + headerSize + n.size }, r2)
      else (b1, n :: r2)
  | [] => (b1, [])

/-- `free`'s coalescing with the previous block: if the block before
the freed one is free, it absorbs the freed block. -/
def coalescePrev (pre : List MB) (c : MB) (rest : List MB) : List MB :=
  match pre.getLast? with
  | some p =>
      if p.is_free then
        pre.dropLast ++ ({ p with size := p.size + headerSize + c.size } :: rest)
      else pre ++ (c :: rest)
  | none => c :: rest

/-- `memoryPool::free(handle)`: invalid-handle and double-free guards,
handle release, then coalescing with the next and with the previous
block, in that order.  The `UNKNOWN_ERROR` arms are unreachable for
states whose handle table references existing headers; they only make
the pointer dereference of the source total. -/
def free (M : Nat) (s : PoolState) (h : Nat) : MPErr × PoolState :=
  if M ≤ h ∨ s.handleTable.getD h none = none then (.INVALID_HANDLE, s)
  else
    match s.handleTable.getD h none with
    | none => (.UNKNOWN_ERROR, s)
    | some o =>
        match findByOff o s.blocks with
        | none => (.UNKNOWN_ERROR, s)
        | some (pre, b, rest) =>
            if b.is_free then (.DOUBLE_FREE_ATTEMPT, s)
            else
              let t1 := s.handleTable.set h none
              let fh := s.freeHandles.set s.freeHandleCount h
              let c1 := s.freeHandleCount + 1
              let nx := coalesceNext { b with is_free := true, handle := 0 } rest
              let bs := coalescePrev pre nx.1 nx.2
              (.SUCCESS,
                { blocks := bs, handleTable := t1, freeHandles := fh,
                  freeHandleCount := c1, mem := syncHeaders s.mem bs })

/-- `memoryPool::getPointer(handle)`: the payload address (arena offset)
behind a valid handle's header. -/
def getPointer (M : Nat) (s : PoolState) (h : Nat) : Option Nat :=
  if M ≤ h ∨ s.handleTable.getD h none = none then none
  else (s.handleTable.getD h none).map (fun o => o + headerSize)

/-- The collection pass of `defragment`: for every non-free block its
handle, size and current payload offset, in chain order. -/
def liveOf (bs : List MB) : List (Nat × Nat × Nat) :=
  bs.filterMap (fun b => if b.is_free then none else some (b.handle, b.size, b.off + headerSize))

/-- The re-layout loop of `defragment`: place the recorded blocks
sequentially from the arena start, aligning the cursor before each
placement; returns the new headers and the final cursor. -/
def relay (cp : Nat) : List (Nat × Nat × Nat) → List MB × Nat
  | [] => ([], cp)
  | e :: rest =>
      let o := alignUp cp
      let r := relay (o + headerSize + e.2.1) rest
      (⟨o, e.2.1, false, e.1⟩ :: r.1, r.2)

/-- The trailing free block `defragment` forms from the residue after
the re-laid blocks, when at least a minimal block of space remains
(checked before and after aligning the cursor, as in the source). -/
def trailingBlock (P e : Nat) : List MB :=
  if e < P - minimalBlockSize then
    let o := alignUp e
    if o < P - minimalBlockSize then [⟨o, P - (o + headerSize), true, 0⟩] else []
  else []

/-- `memoryPool::defragment()`: collect live blocks, reset the head,
re-lay the live blocks from the front updating the handle table, create
a trailing free block if at least a minimal block of residue remains,
and only then `memmove` every payload from its recorded old position to
its new position (looking the target up in the updated handle table). -/
def defragment (P : Nat) (s : PoolState) : PoolState :=
  let live := liveOf s.blocks
  let m1 := writeAt s.mem 0 (encodeHeader (P - headerSize) true none none 0)
  let nl := relay 0 live
  let bs := nl.1 ++ trailingBlock P nl.2
  let t1 := nl.1.foldl (fun t b => t.set b.handle (some b.off)) s.handleTable
  let m2 := syncHeaders m1 bs
  let m3 := live.foldl (fun m e =>
      match t1.getD e.1 none with
      | some o => copyAt m (o + headerSize) e.2.2 e.2.1
      | none => m) m2
  { blocks := bs, handleTable := t1, freeHandles := s.freeHandles,
    freeHandleCount := s.freeHandleCount, mem := m3 }

/-- Allocation a single free block of size `S` can serve according to
`getMaxAllocatableSize`: the size, less one header when the block could
be split, masked down to alignment. -/
def fitSize (S : Nat) : Nat :=
  maskDown (if minimalBlockSize + headerSize ≤ S then S - headerSize else S)

/-- One loop iteration of `getMaxAllocatableSize`. -/
def gmStep (acc : Nat) (b : MB) : Nat :=
  if b.is_free then max acc (fitSize b.size) else acc

/-- `memoryPool::getMaxAllocatableSize()`. -/
def getMaxAllocatableSize (s : PoolState) : Nat :=
  s.blocks.foldl gmStep 0

/-- `memoryPool::getTotalFreeMemory()`. -/
def getTotalFreeMemory (s : PoolState) : Nat :=
  s.blocks.foldl (fun acc b => if b.is_free then acc + b.size else acc) 0

/-- A caller writing bytes through `getPointer` (e.g. `std::memcpy` into
the returned pointer), as the spec's round-trip scenarios do. -/
def writePayload (M : Nat) (s : PoolState) (h : Nat) (d : List Nat) : PoolState :=
  match getPointer M s h with
  | some p => { s with mem := writeAt s.mem p d }
  | none => s

/-- The payload bytes currently readable through `getPointer h` (the
block's `size` bytes after the header). -/
def readPayload (M : Nat) (s : PoolState) (h : Nat) : Option (List Nat) :=
  match getPointer M s h with
  | some p =>
      match findByOff (p - headerSize) s.blocks with
      | some r => some (sliceAt s.mem p r.2.1.size)
      | none => none
  | none => none

/-- States reachable from a fresh pool by `alloc`/`free`/`defragment`. -/
inductive Reachable (P M : Nat) : PoolState → Prop where
  | init : Reachable P M (initState P M)
  | step_alloc : ∀ s sz, Reachable P M s → Reachable P M (alloc P s sz).2.2
  | step_free : ∀ s h, Reachable P M s → Reachable P M (free M s h).2
  | step_defrag : ∀ s, Reachable P M s → Reachable P M (defragment P s)

/-! ### The arena-partition invariant -/

/-- The block headers starting at offset `o` tile the arena contiguously:
each block sits exactly where the previous one ends. -/
def chainFrom : Nat → List MB → Prop
  | _, [] => True
  | o, b :: bs => b.off = o ∧ chainFrom (o + headerSize + b.size) bs

instance chainFromDec : ∀ (o : Nat) (l : List MB), Decidable (chainFrom o l)
  | _, [] => isTrue trivial
  | o, b :: bs =>
      haveI : Decidable (chainFrom (o + headerSize + b.size) bs) :=
        chainFromDec (o + headerSize + b.size) bs
      decidable_of_iff (b.off = o ∧ chainFrom (o + headerSize + b.size) bs) Iff.rfl

/-- Total arena bytes covered by a block list: header plus payload of
each block. -/
def blocksLen (l : List MB) : Nat := l.foldr (fun b a => headerSize + b.size + a) 0

/-- Every block size is at least one alignment unit and aligned. -/
def sizesOK (l : List MB) : Prop := ∀ b ∈ l, 16 ≤ b.size ∧ b.size % 16 = 0

instance sizesOKDec (l : List MB) : Decidable (sizesOK l) :=
  decidable_of_iff (∀ b ∈ l, 16 ≤ b.size ∧ b.size % 16 = 0) Iff.rfl

/-- Arena bytes of the free blocks (with their headers). -/
def freeLen (l : List MB) : Nat :=
  l.foldr (fun b a => if b.is_free then headerSize + b.size + a else a) 0

/-- Arena bytes of the non-free blocks (with their headers). -/
def liveLen (l : List MB) : Nat :=
  l.foldr (fun b a => if b.is_free then a else headerSize + b.size + a) 0

/-- Number of free blocks. -/
def freeCount (l : List MB) : Nat :=
  l.foldr (fun b a => if b.is_free then a + 1 else a) 0

/-- Sum of free block sizes, `foldr` form of `getTotalFreeMemory`. -/
def sumFree (l : List MB) : Nat :=
  l.foldr (fun b a => if b.is_free then b.size + a else a) 0

/-- The partition invariant on a block list: the chain tiles the arena
from offset 0, covering all of `poolSize` except a possible 64-byte
tail a `defragment` call can strand, and all sizes are aligned and
nonzero. -/
def InvB (P : Nat) (l : List MB) : Prop :=
  chainFrom 0 l ∧ (blocksLen l = P ∨ blocksLen l + 64 = P) ∧ sizesOK l

/-- The partition invariant maintained by the pool. -/
def Inv (P : Nat) (s : PoolState) : Prop := InvB P s.blocks

instance invBDec (P : Nat) (l : List MB) : Decidable (InvB P l) :=
  decidable_of_iff (chainFrom 0 l ∧ (blocksLen l = P ∨ blocksLen l + 64 = P) ∧ sizesOK l)
    Iff.rfl

instance invDec (P : Nat) (s : PoolState) : Decidable (Inv P s) :=
  decidable_of_iff (InvB P s.blocks) Iff.rfl

theorem chainFrom_nil (o : Nat) : chainFrom o [] ↔ True := Iff.rfl

theorem chainFrom_cons (o : Nat) (b : MB) (bs : List MB) :
    chainFrom o (b :: bs) ↔ b.off = o ∧ chainFrom (o + headerSize + b.size) bs := Iff.rfl

theorem blocksLen_nil : blocksLen [] = 0 := rfl

theorem blocksLen_cons (b : MB) (bs : List MB) :
    blocksLen (b :: bs) = headerSize + b.size + blocksLen bs := rfl

theorem blocksLen_append (l1 l2 : List MB) :
    blocksLen (l1 ++ l2) = blocksLen l1 + blocksLen l2 := by
  induction l1 with
  | nil => simp [blocksLen_nil]
  | cons b t ih => rw [List.cons_append, blocksLen_cons, blocksLen_cons, ih]; omega

theorem chainFrom_append (o : Nat) (l1 l2 : List MB) :
    chainFrom o (l1 ++ l2) ↔ chainFrom o l1 ∧ chainFrom (o + blocksLen l1) l2 := by
  induction l1 generalizing o with
  | nil => simp [chainFrom_nil, blocksLen_nil]
  | cons b t ih =>
      rw [List.cons_append, chainFrom_cons, chainFrom_cons, ih, blocksLen_cons,
        (by omega : o + headerSize + b.size + blocksLen t
          = o + (headerSize + b.size + blocksLen t)), and_assoc]

theorem chainFrom_bounds {o : Nat} {l : List MB} (h : chainFrom o l) :
    ∀ b ∈ l, o ≤ b.off ∧ b.off + headerSize + b.size ≤ o + blocksLen l := by
  induction l generalizing o with
  | nil => simp
  | cons c t ih =>
      rw [chainFrom_cons] at h
      obtain ⟨h1, h2⟩ := h
      intro b hb
      rcases List.mem_cons.mp hb with h3 | h3
      · subst h3
        have h4 : 0 ≤ blocksLen t := Nat.zero_le _
        rw [blocksLen_cons]
        omega
      · have := ih h2 b h3
        rw [blocksLen_cons]
        omega

theorem sizesOK_append {l1 l2 : List MB} :
    sizesOK (l1 ++ l2) ↔ sizesOK l1 ∧ sizesOK l2 := by
  constructor
  · intro h
    exact ⟨fun b hb => h b (List.mem_append_left _ hb),
           fun b hb => h b (List.mem_append_right _ hb)⟩
  · rintro ⟨h1, h2⟩ b hb
    rcases List.mem_append.mp hb with hb | hb
    · exact h1 b hb
    · exact h2 b hb

theorem findFit_eq_some {sz : Nat} :
    ∀ {l : List MB} {pre cur rest}, findFit sz l = some (pre, cur, rest) →
      l = pre ++ cur :: rest ∧ cur.is_free = true ∧ sz ≤ cur.size ∧
        ∀ b ∈ pre, ¬(b.is_free = true ∧ sz ≤ b.size) := by
  intro l
  induction l with
  | nil => intro pre cur rest h; simp [findFit] at h
  | cons b bs ih =>
      intro pre cur rest h
      by_cases hb : b.is_free = true ∧ sz ≤ b.size
      · simp [findFit, hb] at h
        obtain ⟨h1, h2, h3⟩ := h
        subst h1; subst h2; subst h3
        exact ⟨rfl, hb.1, hb.2, by simp⟩
      · simp only [findFit, if_neg hb] at h
        rcases Option.map_eq_some'.mp h with ⟨r, hr, hq⟩
        obtain ⟨p1, c1, r1⟩ := r
        have := @ih p1 c1 r1 hr
        obtain ⟨rfl, hc, hsz, hpre⟩ := this
        cases hq
        refine ⟨rfl, hc, hsz, ?_⟩
        intro x hx
        rcases List.mem_cons.mp hx with rfl | hx
        · exact hb
        · exact hpre x hx

theorem findFit_eq_none {sz : Nat} :
    ∀ {l : List MB}, findFit sz l = none ↔ ∀ b ∈ l, ¬(b.is_free = true ∧ sz ≤ b.size) := by
  intro l
  induction l with
  | nil => simp [findFit]
  | cons b bs ih =>
      by_cases hb : b.is_free = true ∧ sz ≤ b.size
      · simp only [findFit, if_pos hb]
        constructor
        · intro h; simp at h
        · intro h; exact absurd hb (h b (by simp))
      · simp only [findFit, if_neg hb, Option.map_eq_none']
        rw [ih]
        constructor
        · intro h x hx
          rcases List.mem_cons.mp hx with h3 | h3
          · subst h3; exact hb
          · exact h x h3
        · intro h x hx
          exact h x (List.mem_cons_of_mem _ hx)

theorem findByOff_eq_some {o : Nat} :
    ∀ {l : List MB} {pre cur rest}, findByOff o l = some (pre, cur, rest) →
      l = pre ++ cur :: rest ∧ cur.off = o ∧ ∀ b ∈ pre, b.off ≠ o := by
  intro l
  induction l with
  | nil => intro pre cur rest h; simp [findByOff] at h
  | cons b bs ih =>
      intro pre cur rest h
      by_cases hb : b.off = o
      · simp [findByOff, hb] at h
        obtain ⟨h1, h2, h3⟩ := h
        subst h1; subst h2; subst h3
        exact ⟨rfl, hb, by simp⟩
      · simp only [findByOff, if_neg hb] at h
        rcases Option.map_eq_some'.mp h with ⟨r, hr, hq⟩
        obtain ⟨p1, c1, r1⟩ := r
        obtain ⟨rfl, hc, hpre⟩ := @ih p1 c1 r1 hr
        cases hq
        refine ⟨rfl, hc, ?_⟩
        intro x hx
        rcases List.mem_cons.mp hx with rfl | hx
        · exact hb
        · exact hpre x hx

theorem alignUp_ge (n : Nat) : n ≤ alignUp n := by
  unfold alignUp; omega

theorem alignUp_mod (n : Nat) : alignUp n % 16 = 0 := by
  unfold alignUp; omega

theorem alignUp_pos {n : Nat} (h : 0 < n) : 16 ≤ alignUp n := by
  unfold alignUp; omega

theorem alignUp_eq_self {n : Nat} (h : n % 16 = 0) : alignUp n = n := by
  unfold alignUp; omega

theorem maskDown_le (n : Nat) : maskDown n ≤ n := by
  unfold maskDown; omega

theorem maskDown_mod (n : Nat) : maskDown n % 16 = 0 := by
  unfold maskDown; omega

theorem maskDown_eq_self {n : Nat} (h : n % 16 = 0) : maskDown n = n := by
  unfold maskDown; omega

/-- Replacing one chain element by a same-footprint sublist preserves
the partition invariant. -/
theorem invB_replace {P : Nat} {pre rest mid : List MB} {cur : MB}
    (h : InvB P (pre ++ cur :: rest))
    (hlen : blocksLen mid = headerSize + cur.size)
    (hchain : chainFrom cur.off mid)
    (hsz : sizesOK mid) :
    InvB P (pre ++ mid ++ rest) := by
  obtain ⟨hc, hl, hs⟩ := h
  rw [chainFrom_append] at hc
  obtain ⟨hc1, hc2⟩ := hc
  rw [chainFrom_cons] at hc2
  obtain ⟨hoff, hc3⟩ := hc2
  refine ⟨?_, ?_, ?_⟩
  · rw [chainFrom_append, chainFrom_append, blocksLen_append, hlen]
    refine ⟨⟨hc1, ?_⟩, ?_⟩
    · rw [← hoff]; exact hchain
    · rw [(by omega : 0 + (blocksLen pre + (headerSize + cur.size))
        = 0 + blocksLen pre + headerSize + cur.size)]
      exact hc3
  · rw [blocksLen_append, blocksLen_append, hlen]
    rw [blocksLen_append, blocksLen_cons] at hl
    omega
  · rw [sizesOK_append] at hs
    obtain ⟨hs1, hs2⟩ := hs
    have hs3 : sizesOK rest := fun b hb => hs2 b (List.mem_cons_of_mem _ hb)
    rw [sizesOK_append, sizesOK_append]
    exact ⟨⟨hs1, hsz⟩, hs3⟩

theorem allocMid_blocksLen (sz : Nat) (cur : MB) :
    blocksLen (allocMid sz cur) = headerSize + cur.size := by
  unfold allocMid
  split
  · rename_i h
    rw [blocksLen_cons, blocksLen_cons, blocksLen_nil]
    show headerSize + sz + (headerSize + (cur.size - (sz + headerSize)) + 0)
      = headerSize + cur.size
    omega
  · rw [blocksLen_cons, blocksLen_nil]
    show headerSize + cur.size + 0 = headerSize + cur.size
    omega

theorem allocMid_chain (sz : Nat) (cur : MB) :
    chainFrom cur.off (allocMid sz cur) := by
  unfold allocMid
  split
  · exact ⟨rfl, rfl, trivial⟩
  · exact ⟨rfl, trivial⟩

theorem allocMid_sizes (sz : Nat) (cur : MB) (hsz : 16 ≤ sz ∧ sz % 16 = 0)
    (hcur : 16 ≤ cur.size ∧ cur.size % 16 = 0) :
    sizesOK (allocMid sz cur) := by
  have h48 : headerSize = 48 := rfl
  have h64 : minimalBlockSize = 64 := rfl
  unfold allocMid
  split
  · rename_i h
    intro b hb
    rcases List.mem_cons.mp hb with h1 | h1
    · subst h1; exact hsz
    · rcases List.mem_cons.mp h1 with h2 | h2
      · subst h2
        refine ⟨?_, ?_⟩
        · show 16 ≤ cur.size - (sz + headerSize)
          omega
        · show (cur.size - (sz + headerSize)) % 16 = 0
          omega
      · cases h2
  · intro b hb
    rcases List.mem_cons.mp hb with h1 | h1
    · subst h1; exact hcur
    · cases h1

theorem setHandle_blocksLen (h : Nat) (l : List MB) :
    blocksLen (setHandle h l) = blocksLen l := by
  cases l with
  | nil => rfl
  | cons c t => rw [setHandle, blocksLen_cons, blocksLen_cons]

theorem setHandle_chain (h : Nat) (o : Nat) (l : List MB) :
    chainFrom o (setHandle h l) ↔ chainFrom o l := by
  cases l with
  | nil => exact Iff.rfl
  | cons c t => rw [setHandle, chainFrom_cons, chainFrom_cons]

theorem setHandle_sizes (h : Nat) (l : List MB) :
    sizesOK (setHandle h l) ↔ sizesOK l := by
  cases l with
  | nil => exact Iff.rfl
  | cons c t =>
      rw [setHandle]
      constructor
      · intro hh b hb
        rcases List.mem_cons.mp hb with h1 | h1
        · have := hh { c with handle := h } (List.mem_cons_self _ _)
          subst h1
          exact this
        · exact hh b (List.mem_cons_of_mem _ h1)
      · intro hh b hb
        rcases List.mem_cons.mp hb with h1 | h1
        · have := hh c (List.mem_cons_self _ _)
          subst h1
          exact this
        · exact hh b (List.mem_cons_of_mem _ h1)

/-- Case analysis of `alloc`'s effect on the block list. -/
theorem alloc_blocks_shape (P : Nat) (s : PoolState) (req : Nat) :
    (alloc P s req).2.2.blocks = s.blocks ∨
    ∃ pre cur rest, 0 < req ∧ findFit (alignUp req) s.blocks = some (pre, cur, rest) ∧
      ((alloc P s req).2.2.blocks = pre ++ allocMid (alignUp req) cur ++ rest ∨
       (alloc P s req).2.2.blocks
         = pre ++ setHandle (s.freeHandles.getD (s.freeHandleCount - 1) 0)
             (allocMid (alignUp req) cur) ++ rest) := by
  unfold alloc
  split
  · left; rfl
  · rename_i hguard
    rcases hf : findFit (alignUp req) s.blocks with _ | ⟨pre, cur, rest⟩
    · left; simp only [hf]
    · right
      refine ⟨pre, cur, rest, by omega, rfl, ?_⟩
      by_cases h2 : s.freeHandleCount = 0
      · left; simp only [hf, h2, if_pos]
      · right; simp only [hf, h2, if_neg, ite_false]

theorem alloc_preserves_inv {P : Nat} {s : PoolState} (req : Nat) (hs : Inv P s) :
    Inv P (alloc P s req).2.2 := by
  rcases alloc_blocks_shape P s req with h | ⟨pre, cur, rest, hreq, hf, h⟩
  · unfold Inv; rw [h]; exact hs
  · obtain ⟨hdec, hfree, hszle, hpre⟩ := findFit_eq_some hf
    have hs' : InvB P (pre ++ cur :: rest) := by rw [← hdec]; exact hs
    have hcur : 16 ≤ cur.size ∧ cur.size % 16 = 0 := by
      have := hs.2.2
      rw [hdec] at this
      exact this cur (by simp)
    have hsz : 16 ≤ alignUp req ∧ alignUp req % 16 = 0 :=
      ⟨alignUp_pos hreq, alignUp_mod req⟩
    rcases h with h | h
    · unfold Inv
      rw [h]
      exact invB_replace hs' (allocMid_blocksLen _ _) (allocMid_chain _ _)
        (allocMid_sizes _ _ hsz hcur)
    · unfold Inv
      rw [h]
      refine invB_replace hs' ?_ ?_ ?_
      · rw [setHandle_blocksLen, allocMid_blocksLen]
      · rw [setHandle_chain]; exact allocMid_chain _ _
      · rw [setHandle_sizes]; exact allocMid_sizes _ _ hsz hcur

theorem chainFrom_singleton {o : Nat} {x : MB} : chainFrom o [x] ↔ x.off = o := by
  rw [chainFrom_cons]
  simp [chainFrom_nil]

theorem chainFrom_pair {o : Nat} {x y : MB} :
    chainFrom o [x, y] ↔ x.off = o ∧ y.off = o + headerSize + x.size := by
  rw [chainFrom_cons, chainFrom_cons]
  simp [chainFrom_nil]

theorem sizesOK_singleton {x : MB} : sizesOK [x] ↔ 16 ≤ x.size ∧ x.size % 16 = 0 := by
  simp [sizesOK]

/-- Replacing a chain segment by a same-footprint segment preserves the
partition invariant. -/
theorem invB_replace_seg {P : Nat} {A C seg seg' : List MB}
    (h : InvB P ((A ++ seg) ++ C))
    (hlen : blocksLen seg' = blocksLen seg)
    (hchain : ∀ o, chainFrom o seg → chainFrom o seg')
    (hsz : sizesOK seg') :
    InvB P ((A ++ seg') ++ C) := by
  obtain ⟨hc, hl, hs⟩ := h
  rw [chainFrom_append, chainFrom_append, blocksLen_append] at hc
  rw [blocksLen_append, blocksLen_append] at hl
  rw [sizesOK_append, sizesOK_append] at hs
  refine ⟨?_, ?_, ?_⟩
  · rw [chainFrom_append, chainFrom_append, blocksLen_append, hlen]
    exact ⟨⟨hc.1.1, hchain _ hc.1.2⟩, hc.2⟩
  · rw [blocksLen_append, blocksLen_append, hlen]
    omega
  · rw [sizesOK_append, sizesOK_append]
    exact ⟨⟨hs.1.1, hsz⟩, hs.2⟩

theorem getLast?_cons_ne_none : ∀ (t : List MB) (a : MB), (a :: t).getLast? ≠ none := by
  intro t
  induction t with
  | nil => intro a h; simp at h
  | cons b t2 ih => intro a h; rw [List.getLast?_cons_cons] at h; exact ih b h

theorem getLast?_none_nil {l : List MB} (h : l.getLast? = none) : l = [] := by
  cases l with
  | nil => rfl
  | cons a t => exact absurd h (getLast?_cons_ne_none t a)

theorem getLast?_some_decomp : ∀ {l : List MB} {p : MB}, l.getLast? = some p →
    ∃ D, l = D ++ [p] := by
  intro l
  induction l with
  | nil => intro p h; simp at h
  | cons a t ih =>
      intro p h
      cases t with
      | nil =>
          simp at h
          subst h
          exact ⟨[], rfl⟩
      | cons a2 t2 =>
          rw [List.getLast?_cons_cons] at h
          obtain ⟨D, hD⟩ := ih h
          exact ⟨a :: D, by rw [hD]; rfl⟩

theorem coalesceNext_invB {P : Nat} {pre rest : List MB} {b b1 : MB}
    (hinv : InvB P (pre ++ b :: rest))
    (hoff : b1.off = b.off) (hsize : b1.size = b.size) :
    InvB P (pre ++ (coalesceNext b1 rest).1 :: (coalesceNext b1 rest).2) := by
  have h48 : headerSize = 48 := rfl
  have hb : 16 ≤ b.size ∧ b.size % 16 = 0 := hinv.2.2 b (by simp)
  rcases rest with _ | ⟨n, r2⟩
  · have e1 : pre ++ b :: ([] : List MB) = (pre ++ [b]) ++ [] := by simp
    have e2 : pre ++ (coalesceNext b1 []).1 :: (coalesceNext b1 []).2
        = (pre ++ [b1]) ++ [] := by simp [coalesceNext]
    rw [e2]
    rw [e1] at hinv
    refine invB_replace_seg hinv ?_ ?_ ?_
    · simp only [blocksLen_cons, blocksLen_nil]
      omega
    · intro o ho
      rw [chainFrom_singleton] at ho ⊢
      rw [hoff]; exact ho
    · rw [sizesOK_singleton, hsize]; exact hb
  · have hn : 16 ≤ n.size ∧ n.size % 16 = 0 := hinv.2.2 n (by simp)
    by_cases hnf : n.is_free = true
    · have e1 : pre ++ b :: n :: r2 = (pre ++ [b, n]) ++ r2 := by simp
      have e2 : pre ++ (coalesceNext b1 (n :: r2)).1 :: (coalesceNext b1 (n :: r2)).2
          = (pre ++ [{ b1 with size := b1.size + headerSize + n.size }]) ++ r2 := by
        simp [coalesceNext, hnf]
      rw [e2]
      rw [e1] at hinv
      refine invB_replace_seg hinv ?_ ?_ ?_
      · simp only [blocksLen_cons, blocksLen_nil]
        omega
      · intro o ho
        rw [chainFrom_pair] at ho
        rw [chainFrom_singleton]
        show b1.off = o
        rw [hoff]; exact ho.1
      · rw [sizesOK_singleton]
        show 16 ≤ b1.size + headerSize + n.size ∧ (b1.size + headerSize + n.size) % 16 = 0
        omega
    · have e1 : pre ++ b :: n :: r2 = (pre ++ [b]) ++ (n :: r2) := by simp
      have e2 : pre ++ (coalesceNext b1 (n :: r2)).1 :: (coalesceNext b1 (n :: r2)).2
          = (pre ++ [b1]) ++ (n :: r2) := by simp [coalesceNext, hnf]
      rw [e2]
      rw [e1] at hinv
      refine invB_replace_seg hinv ?_ ?_ ?_
      · simp only [blocksLen_cons, blocksLen_nil]
        omega
      · intro o ho
        rw [chainFrom_singleton] at ho ⊢
        rw [hoff]; exact ho
      · rw [sizesOK_singleton, hsize]; exact hb

theorem coalescePrev_invB {P : Nat} {pre rest : List MB} {c : MB}
    (hinv : InvB P (pre ++ c :: rest)) :
    InvB P (coalescePrev pre c rest) := by
  have h48 : headerSize = 48 := rfl
  have hc : 16 ≤ c.size ∧ c.size % 16 = 0 := hinv.2.2 c (by simp)
  rcases hgl : pre.getLast? with _ | p
  · have hpre : pre = [] := getLast?_none_nil hgl
    subst hpre
    simp only [coalescePrev, hgl]
    simpa using hinv
  · obtain ⟨D, hD⟩ := getLast?_some_decomp hgl
    have hp : 16 ≤ p.size ∧ p.size % 16 = 0 := by
      refine hinv.2.2 p ?_
      rw [hD]
      simp
    have hdrop : pre.dropLast = D := by rw [hD]; simp
    by_cases hpf : p.is_free = true
    · have e2 : coalescePrev pre c rest
          = (D ++ [{ p with size := p.size + headerSize + c.size }]) ++ rest := by
        simp only [coalescePrev, hgl, hpf, if_true, hdrop]
        simp
      have e1 : pre ++ c :: rest = (D ++ [p, c]) ++ rest := by rw [hD]; simp
      rw [e2]
      rw [e1] at hinv
      refine invB_replace_seg hinv ?_ ?_ ?_
      · simp only [blocksLen_cons, blocksLen_nil]
        omega
      · intro o ho
        rw [chainFrom_pair] at ho
        rw [chainFrom_singleton]
        show p.off = o
        exact ho.1
      · rw [sizesOK_singleton]
        show 16 ≤ p.size + headerSize + c.size ∧ (p.size + headerSize + c.size) % 16 = 0
        omega
    · have e2 : coalescePrev pre c rest = pre ++ (c :: rest) := by
        simp only [coalescePrev, hgl, hpf, if_false]
        simp [hpf]
      rw [e2]
      exact hinv

theorem free_preserves_inv {P : Nat} (M : Nat) {s : PoolState} (h : Nat) (hs : Inv P s) :
    Inv P (free M s h).2 := by
  unfold free
  split
  · exact hs
  · split
    · exact hs
    · split
      · exact hs
      · rename_i pre b rest hfo
        split
        · exact hs
        · obtain ⟨hdec, hoff2, _⟩ := findByOff_eq_some hfo
          have hs' : InvB P (pre ++ b :: rest) := by rw [← hdec]; exact hs
          have h1 := @coalesceNext_invB P pre rest b { b with is_free := true, handle := 0 }
            hs' rfl rfl
          exact coalescePrev_invB h1

theorem findByOff_cons (o : Nat) (b : MB) (bs : List MB) :
    findByOff o (b :: bs) = if b.off = o then some ([], b, bs)
      else (findByOff o bs).map (fun r => (b :: r.1, r.2.1, r.2.2)) := rfl

theorem findByOff_append {o : Nat} {l1 : List MB} {c : MB} {l2 : List MB}
    (h1 : ∀ b ∈ l1, b.off ≠ o) (hc : c.off = o) :
    findByOff o (l1 ++ c :: l2) = some (l1, c, l2) := by
  induction l1 with
  | nil => rw [List.nil_append, findByOff_cons, if_pos hc]
  | cons b t ih =>
      have hb : b.off ≠ o := h1 b (by simp)
      rw [List.cons_append, findByOff_cons, if_neg hb,
        ih (fun x hx => h1 x (List.mem_cons_of_mem _ hx))]
      rfl

/-! ### `defragment` preserves the invariant -/

/-- Arena footprint of the entries collected by `defragment`. -/
def entsLen (l : List (Nat × Nat × Nat)) : Nat :=
  l.foldr (fun e a => headerSize + e.2.1 + a) 0

theorem liveOf_cons (b : MB) (t : List MB) :
    liveOf (b :: t) = if b.is_free then liveOf t
      else (b.handle, b.size, b.off + headerSize) :: liveOf t := by
  by_cases hb : b.is_free = true <;> simp [liveOf, List.filterMap_cons, hb]

theorem liveLen_cons (b : MB) (t : List MB) :
    liveLen (b :: t) = if b.is_free then liveLen t
      else headerSize + b.size + liveLen t := rfl

theorem freeLen_cons (b : MB) (t : List MB) :
    freeLen (b :: t) = if b.is_free then headerSize + b.size + freeLen t
      else freeLen t := rfl

theorem entsLen_cons (e : Nat × Nat × Nat) (l : List (Nat × Nat × Nat)) :
    entsLen (e :: l) = headerSize + e.2.1 + entsLen l := rfl

theorem entsLen_liveOf (bs : List MB) : entsLen (liveOf bs) = liveLen bs := by
  induction bs with
  | nil => rfl
  | cons b t ih =>
      rw [liveOf_cons, liveLen_cons]
      by_cases hb : b.is_free = true
      · rw [if_pos hb, if_pos hb, ih]
      · rw [if_neg hb, if_neg hb, entsLen_cons, ih]

theorem liveLen_add_freeLen (l : List MB) : liveLen l + freeLen l = blocksLen l := by
  induction l with
  | nil => rfl
  | cons b t ih =>
      rw [liveLen_cons, freeLen_cons, blocksLen_cons]
      by_cases hb : b.is_free = true
      · rw [if_pos hb, if_pos hb]; omega
      · rw [if_neg hb, if_neg hb]; omega

theorem liveLen_mod {l : List MB} (h : sizesOK l) : liveLen l % 16 = 0 := by
  have h48 : headerSize = 48 := rfl
  induction l with
  | nil => rfl
  | cons b t ih =>
      have hb := h b (List.mem_cons_self _ _)
      have ht := ih (fun x hx => h x (List.mem_cons_of_mem _ hx))
      rw [liveLen_cons]
      by_cases hf : b.is_free = true
      · rw [if_pos hf]; exact ht
      · rw [if_neg hf]; omega

theorem freeLen_mod {l : List MB} (h : sizesOK l) : freeLen l % 16 = 0 := by
  have h48 : headerSize = 48 := rfl
  induction l with
  | nil => rfl
  | cons b t ih =>
      have hb := h b (List.mem_cons_self _ _)
      have ht := ih (fun x hx => h x (List.mem_cons_of_mem _ hx))
      rw [freeLen_cons]
      by_cases hf : b.is_free = true
      · rw [if_pos hf]; omega
      · rw [if_neg hf]; exact ht

theorem freeLen_small {l : List MB} (h : sizesOK l) (hle : freeLen l ≤ 64) :
    freeLen l = 0 ∨ freeLen l = 64 := by
  have h48 : headerSize = 48 := rfl
  induction l with
  | nil => left; rfl
  | cons b t ih =>
      have hb := h b (List.mem_cons_self _ _)
      have ht : sizesOK t := fun x hx => h x (List.mem_cons_of_mem _ hx)
      rw [freeLen_cons] at hle ⊢
      by_cases hf : b.is_free = true
      · rw [if_pos hf] at hle ⊢
        have h0 : 0 ≤ freeLen t := Nat.zero_le _
        omega
      · rw [if_neg hf] at hle ⊢
        exact ih ht hle

theorem liveOf_sizes {bs : List MB} (h : sizesOK bs) :
    ∀ e ∈ liveOf bs, 16 ≤ e.2.1 ∧ e.2.1 % 16 = 0 := by
  intro e he
  rcases List.mem_filterMap.mp he with ⟨b, hb, hbe⟩
  by_cases hbf : b.is_free = true
  · rw [if_pos hbf] at hbe; cases hbe
  · rw [if_neg hbf] at hbe
    cases hbe
    exact h b hb

theorem relay_cons (cp : Nat) (e : Nat × Nat × Nat) (l : List (Nat × Nat × Nat)) :
    relay cp (e :: l)
      = (⟨alignUp cp, e.2.1, false, e.1⟩ :: (relay (alignUp cp + headerSize + e.2.1) l).1,
         (relay (alignUp cp + headerSize + e.2.1) l).2) := rfl

theorem relay_spec :
    ∀ (l : List (Nat × Nat × Nat)) (cp : Nat), cp % 16 = 0 → (∀ e ∈ l, e.2.1 % 16 = 0) →
      chainFrom cp (relay cp l).1 ∧ (relay cp l).2 = cp + entsLen l ∧
      blocksLen (relay cp l).1 = entsLen l ∧
      ∀ b ∈ (relay cp l).1, b.is_free = false ∧ ∃ e ∈ l, b.size = e.2.1 ∧ b.handle = e.1 := by
  intro l
  induction l with
  | nil =>
      intro cp hcp hl
      exact ⟨trivial, rfl, rfl, by simp [relay]⟩
  | cons e t ih =>
      intro cp hcp hl
      have h48 : headerSize = 48 := rfl
      have hcp' : (cp + headerSize + e.2.1) % 16 = 0 := by
        have := hl e (List.mem_cons_self _ _)
        omega
      obtain ⟨ihc, ihe, ihlen, ihb⟩ :=
        ih (cp + headerSize + e.2.1) hcp' (fun x hx => hl x (List.mem_cons_of_mem _ hx))
      rw [relay_cons, alignUp_eq_self hcp]
      refine ⟨⟨rfl, ihc⟩, ?_, ?_, ?_⟩
      · rw [ihe, entsLen_cons]; omega
      · rw [blocksLen_cons, ihlen, entsLen_cons]
      · intro b hb
        rcases List.mem_cons.mp hb with h1 | h1
        · subst h1
          exact ⟨rfl, e, List.mem_cons_self _ _, rfl, rfl⟩
        · obtain ⟨hbf, x, hx, hbx⟩ := ihb b h1
          exact ⟨hbf, x, List.mem_cons_of_mem _ hx, hbx⟩

theorem defragment_preserves_inv {P : Nat} {s : PoolState}
    (hP16 : P % 16 = 0) (hP : 112 < P) (hs : Inv P s) :
    Inv P (defragment P s) := by
  have h48 : headerSize = 48 := rfl
  have h64 : minimalBlockSize = 64 := rfl
  obtain ⟨hc, hl, hsz⟩ := hs
  have hlivemod : ∀ e ∈ liveOf s.blocks, e.2.1 % 16 = 0 :=
    fun e he => (liveOf_sizes hsz e he).2
  have hlive16 : ∀ e ∈ liveOf s.blocks, 16 ≤ e.2.1 :=
    fun e he => (liveOf_sizes hsz e he).1
  obtain ⟨hrc, hre, hrlen, hrb⟩ := relay_spec (liveOf s.blocks) 0 (by omega) hlivemod
  have hE : (relay 0 (liveOf s.blocks)).2 = liveLen s.blocks := by
    rw [hre, entsLen_liveOf]; omega
  have hLF := liveLen_add_freeLen s.blocks
  have hLmod := liveLen_mod hsz
  have hFmod := freeLen_mod hsz
  have hEmod : (relay 0 (liveOf s.blocks)).2 % 16 = 0 := by rw [hE]; exact hLmod
  have hNLsizes : sizesOK (relay 0 (liveOf s.blocks)).1 := by
    intro b hb
    obtain ⟨_, x, hx, hbx, _⟩ := hrb b hb
    rw [hbx]
    exact ⟨hlive16 x hx, hlivemod x hx⟩
  show InvB P ((relay 0 (liveOf s.blocks)).1 ++ trailingBlock P (relay 0 (liveOf s.blocks)).2)
  by_cases hcond : (relay 0 (liveOf s.blocks)).2 < P - minimalBlockSize
  · have htb : trailingBlock P (relay 0 (liveOf s.blocks)).2
        = [⟨(relay 0 (liveOf s.blocks)).2,
            P - ((relay 0 (liveOf s.blocks)).2 + headerSize), true, 0⟩] := by
      unfold trailingBlock
      rw [alignUp_eq_self hEmod, if_pos hcond, if_pos hcond]
    rw [htb]
    refine ⟨?_, ?_, ?_⟩
    · rw [chainFrom_append]
      refine ⟨hrc, ?_⟩
      rw [chainFrom_singleton]
      show (relay 0 (liveOf s.blocks)).2 = 0 + blocksLen (relay 0 (liveOf s.blocks)).1
      rw [hrlen, hre]
    · rw [blocksLen_append, hrlen, blocksLen_cons, blocksLen_nil]
      left
      show entsLen (liveOf s.blocks)
          + (headerSize + (P - ((relay 0 (liveOf s.blocks)).2 + headerSize)) + 0) = P
      rw [hre] at hcond ⊢
      omega
    · rw [sizesOK_append]
      refine ⟨hNLsizes, ?_⟩
      rw [sizesOK_singleton]
      show 16 ≤ P - ((relay 0 (liveOf s.blocks)).2 + headerSize)
        ∧ (P - ((relay 0 (liveOf s.blocks)).2 + headerSize)) % 16 = 0
      rw [hE] at hcond ⊢
      omega
  · have htb : trailingBlock P (relay 0 (liveOf s.blocks)).2 = [] := by
      unfold trailingBlock
      rw [if_neg hcond]
    rw [htb, List.append_nil]
    refine ⟨hrc, ?_, hNLsizes⟩
    rw [hrlen]
    have hF64 : freeLen s.blocks ≤ 64 := by
      rw [hE] at hcond
      omega
    have := freeLen_small hsz hF64
    rw [← entsLen_liveOf] at hLF
    omega

/-! ### Helper lemmas for the claim theorems -/

theorem getD_set_self {α : Type} : ∀ (l : List α) (i : Nat) (a d : α), i < l.length →
    (l.set i a).getD i d = a := by
  intro l
  induction l with
  | nil => intro i a d h; simp at h
  | cons x t ih =>
      intro i a d h
      cases i with
      | zero => rfl
      | succ j =>
          show (t.set j a).getD j d = a
          exact ih j a d (by simpa using h)

theorem getD_set_ne {α : Type} : ∀ (l : List α) (i j : Nat) (a d : α), i ≠ j →
    (l.set i a).getD j d = l.getD j d := by
  intro l
  induction l with
  | nil => intro i j a d h; rfl
  | cons x t ih =>
      intro i j a d h
      cases i with
      | zero =>
          cases j with
          | zero => exact absurd rfl h
          | succ k => rfl
      | succ i2 =>
          cases j with
          | zero => rfl
          | succ k =>
              show (t.set i2 a).getD k d = t.getD k d
              exact ih i2 k a d (by omega)

/-- Symbolic execution of a successful `alloc`. -/
theorem alloc_success_spec {P : Nat} {s : PoolState} {req h : Nat} {s1 : PoolState}
    (halloc : alloc P s req = (.SUCCESS, some h, s1)) :
    ∃ pre cur rest, findFit (alignUp req) s.blocks = some (pre, cur, rest) ∧
      s.freeHandleCount ≠ 0 ∧
      h = s.freeHandles.getD (s.freeHandleCount - 1) 0 ∧
      ¬(req = 0 ∨ P - headerSize < req) ∧
      s1 = { blocks := pre ++ setHandle h (allocMid (alignUp req) cur) ++ rest
             handleTable := s.handleTable.set h (some cur.off)
             freeHandles := s.freeHandles
             freeHandleCount := s.freeHandleCount - 1
             mem := syncHeaders s.mem
               (pre ++ setHandle h (allocMid (alignUp req) cur) ++ rest) } := by
  unfold alloc at halloc
  split at halloc
  · cases halloc
  · rename_i hguard
    split at halloc
    · simp at halloc
    · rename_i pre cur rest hf
      split at halloc
      · simp at halloc
      · rename_i hcount
        simp only [Prod.mk.injEq, Option.some_inj] at halloc
        obtain ⟨-, hh, hs1⟩ := halloc
        subst hh
        exact ⟨pre, cur, rest, hf, hcount, rfl, hguard, hs1.symm⟩

/-- Symbolic execution of a successful `free`. -/
theorem free_success_spec {M : Nat} {s : PoolState} {hdl : Nat} {s1 : PoolState}
    (hfree : free M s hdl = (.SUCCESS, s1)) :
    ∃ o pre b rest, hdl < M ∧ s.handleTable.getD hdl none = some o ∧
      findByOff o s.blocks = some (pre, b, rest) ∧ b.is_free = false ∧
      s1 = { blocks := coalescePrev pre
               (coalesceNext { b with is_free := true, handle := 0 } rest).1
               (coalesceNext { b with is_free := true, handle := 0 } rest).2,
             handleTable := s.handleTable.set hdl none,
             freeHandles := s.freeHandles.set s.freeHandleCount hdl,
             freeHandleCount := s.freeHandleCount + 1,
             mem := syncHeaders s.mem (coalescePrev pre
               (coalesceNext { b with is_free := true, handle := 0 } rest).1
               (coalesceNext { b with is_free := true, handle := 0 } rest).2) } := by
  unfold free at hfree
  split at hfree
  · cases hfree
  · rename_i hguard
    split at hfree
    · cases hfree
    · rename_i o ht
      split at hfree
      · cases hfree
      · rename_i pre b rest hfo
        split at hfree
        · cases hfree
        · rename_i hbf
          simp only [Prod.mk.injEq] at hfree
          exact ⟨o, pre, b, rest, Nat.not_le.mp (not_or.mp hguard).1, ht, hfo,
            by simpa using hbf, hfree.2.symm⟩

/-- Evaluation of `free` on a valid, live handle. -/
theorem free_eval {M : Nat} {s : PoolState} {h o : Nat} {pre : List MB} {b : MB}
    {rest : List MB}
    (hM : h < M)
    (ht : s.handleTable.getD h none = some o)
    (hfo : findByOff o s.blocks = some (pre, b, rest))
    (hbf : b.is_free = false) :
    free M s h = (.SUCCESS,
      { blocks := coalescePrev pre
          (coalesceNext { b with is_free := true, handle := 0 } rest).1
          (coalesceNext { b with is_free := true, handle := 0 } rest).2,
        handleTable := s.handleTable.set h none,
        freeHandles := s.freeHandles.set s.freeHandleCount h,
        freeHandleCount := s.freeHandleCount + 1,
        mem := syncHeaders s.mem (coalescePrev pre
          (coalesceNext { b with is_free := true, handle := 0 } rest).1
          (coalesceNext { b with is_free := true, handle := 0 } rest).2) }) := by
  unfold free
  rw [ht, if_neg (by simp [Nat.not_le.mpr hM])]
  simp [hfo, hbf]

/-- `free` on an out-of-range or cleared handle. -/
theorem free_invalid {M : Nat} {s : PoolState} {h : Nat}
    (hcond : M ≤ h ∨ s.handleTable.getD h none = none) :
    free M s h = (.INVALID_HANDLE, s) := by
  unfold free
  rw [if_pos hcond]

/-! ### The invariant holds in every reachable state -/

theorem reachable_inv {P M : Nat} (hP16 : P % 16 = 0) (hP : 112 < P)
    {s : PoolState} (hr : Reachable P M s) : Inv P s := by
  induction hr with
  | init =>
      refine ⟨⟨rfl, trivial⟩, ?_, ?_⟩
      · left
        show blocksLen [⟨0, P - headerSize, true, 0⟩] = P
        rw [blocksLen_cons, blocksLen_nil]
        show headerSize + (P - headerSize) + 0 = P
        have h48 : headerSize = 48 := rfl
        omega
      · intro b hb
        have hb' : b ∈ [(⟨0, P - headerSize, true, 0⟩ : MB)] := hb
        rcases List.mem_cons.mp hb' with h1 | h1
        · subst h1
          have h48 : headerSize = 48 := rfl
          refine ⟨?_, ?_⟩
          · show 16 ≤ P - headerSize
            omega
          · show (P - headerSize) % 16 = 0
            omega
        · cases h1
  | step_alloc s sz hr ih => exact alloc_preserves_inv sz ih
  | step_free s h hr ih => exact free_preserves_inv M h ih
  | step_defrag s hr ih => exact defragment_preserves_inv hP16 hP ih

/-! ### `fitSize` and the `getMaxAllocatableSize` fold -/

theorem fitSize_le (S : Nat) : fitSize S ≤ S := by
  unfold fitSize maskDown
  split <;> omega

theorem fitSize_mod (S : Nat) : fitSize S % 16 = 0 := maskDown_mod _

theorem fitSize_eq {S : Nat} (hS : S % 16 = 0) :
    fitSize S = if 112 ≤ S then S - 48 else S := by
  have h112 : minimalBlockSize + headerSize = 112 := rfl
  have h48 : headerSize = 48 := rfl
  unfold fitSize
  rw [h112, h48]
  split <;> [exact maskDown_eq_self (by omega); exact maskDown_eq_self hS]

theorem fitSize_mono64 {S x : Nat} (hS : S % 16 = 0) (hx : x % 16 = 0)
    (h : S + 64 ≤ x) : fitSize S ≤ fitSize x := by
  rw [fitSize_eq hS, fitSize_eq hx]
  split <;> split <;> omega

theorem foldl_gm_le {c : Nat} :
    ∀ {l : List MB} {acc : Nat}, acc ≤ c →
      (∀ b ∈ l, b.is_free = true → fitSize b.size ≤ c) → l.foldl gmStep acc ≤ c := by
  intro l
  induction l with
  | nil => intro acc ha _; exact ha
  | cons b t ih =>
      intro acc ha hl
      rw [List.foldl_cons]
      refine ih ?_ (fun x hx hf => hl x (List.mem_cons_of_mem _ hx) hf)
      unfold gmStep
      by_cases hb : b.is_free = true
      · rw [if_pos hb]
        exact max_le ha (hl b (List.mem_cons_self _ _) hb)
      · rw [if_neg hb]; exact ha

theorem foldl_gm_nofree : ∀ {l : List MB}, (∀ b ∈ l, b.is_free = false) →
    ∀ (acc : Nat), l.foldl gmStep acc = acc := by
  intro l
  induction l with
  | nil => intro _ acc; rfl
  | cons b t ih =>
      intro h acc
      rw [List.foldl_cons]
      have hb : b.is_free = false := h b (List.mem_cons_self _ _)
      have : gmStep acc b = acc := by unfold gmStep; rw [hb]; simp
      rw [this]
      exact ih (fun x hx => h x (List.mem_cons_of_mem _ hx)) acc

theorem foldl_gm_mod : ∀ {l : List MB} {acc : Nat}, acc % 16 = 0 →
    (l.foldl gmStep acc) % 16 = 0 := by
  intro l
  induction l with
  | nil => intro acc ha; exact ha
  | cons b t ih =>
      intro acc ha
      rw [List.foldl_cons]
      refine ih ?_
      unfold gmStep
      by_cases hb : b.is_free = true
      · rw [if_pos hb]
        rcases Nat.le_total acc (fitSize b.size) with h1 | h1
        · rw [Nat.max_eq_right h1]; exact fitSize_mod _
        · rw [Nat.max_eq_left h1]; exact ha
      · rw [if_neg hb]; exact ha

theorem foldl_gm_achieved : ∀ {l : List MB} {acc : Nat},
    l.foldl gmStep acc = acc ∨
    ∃ b ∈ l, b.is_free = true ∧ l.foldl gmStep acc = fitSize b.size := by
  intro l
  induction l with
  | nil => intro acc; left; rfl
  | cons b t ih =>
      intro acc
      rw [List.foldl_cons]
      by_cases hb : b.is_free = true
      · have hg : gmStep acc b = max acc (fitSize b.size) := by unfold gmStep; rw [if_pos hb]
        rcases @ih (gmStep acc b) with h1 | ⟨x, hx, hxf, hxe⟩
        · rcases Nat.le_total acc (fitSize b.size) with h2 | h2
          · right
            exact ⟨b, List.mem_cons_self _ _, hb, by rw [h1, hg, Nat.max_eq_right h2]⟩
          · left
            rw [h1, hg, Nat.max_eq_left h2]
        · right
          exact ⟨x, List.mem_cons_of_mem _ hx, hxf, hxe⟩
      · have hg : gmStep acc b = acc := by unfold gmStep; rw [if_neg hb]
        rw [hg]
        rcases @ih acc with h1 | ⟨x, hx, hxf, hxe⟩
        · left; exact h1
        · right; exact ⟨x, List.mem_cons_of_mem _ hx, hxf, hxe⟩

/-! ### Free-footprint bounds -/

theorem freeLen_zero_or_ge {l : List MB} (hsz : sizesOK l) :
    freeLen l = 0 ∨ 64 ≤ freeLen l := by
  have h48 : headerSize = 48 := rfl
  induction l with
  | nil => left; rfl
  | cons b t ih =>
      have hb := hsz b (List.mem_cons_self _ _)
      have ht := ih (fun x hx => hsz x (List.mem_cons_of_mem _ hx))
      rw [freeLen_cons]
      by_cases hf : b.is_free = true
      · rw [if_pos hf]; omega
      · rw [if_neg hf]; exact ht

theorem freeLen_ge_single {l : List MB} {b : MB} (hb : b ∈ l) (hf : b.is_free = true) :
    headerSize + b.size ≤ freeLen l := by
  induction l with
  | nil => cases hb
  | cons x t ih =>
      rw [freeLen_cons]
      rcases List.mem_cons.mp hb with h1 | h1
      · subst h1
        rw [if_pos hf]
        omega
      · by_cases hx : x.is_free = true
        · rw [if_pos hx]
          have := ih h1
          omega
        · rw [if_neg hx]; exact ih h1

theorem freeLen_of_mem {l : List MB} (hsz : sizesOK l) {b : MB} (hb : b ∈ l)
    (hf : b.is_free = true) :
    freeLen l = headerSize + b.size ∨ headerSize + b.size + 64 ≤ freeLen l := by
  have h48 : headerSize = 48 := rfl
  induction l with
  | nil => cases hb
  | cons x t ih =>
      have hszt : sizesOK t := fun y hy => hsz y (List.mem_cons_of_mem _ hy)
      rw [freeLen_cons]
      rcases List.mem_cons.mp hb with h1 | h1
      · subst h1
        rw [if_pos hf]
        rcases freeLen_zero_or_ge hszt with h2 | h2
        · left; omega
        · right; omega
      · by_cases hx : x.is_free = true
        · rw [if_pos hx]
          have h2 := freeLen_ge_single h1 hf
          have hx16 := hsz x (List.mem_cons_self _ _)
          right
          omega
        · rw [if_neg hx]
          exact ih hszt h1

/-! ### Accounting identities -/

theorem sumFree_cons (b : MB) (t : List MB) :
    sumFree (b :: t) = if b.is_free then b.size + sumFree t else sumFree t := rfl

theorem freeCount_cons (b : MB) (t : List MB) :
    freeCount (b :: t) = if b.is_free then freeCount t + 1 else freeCount t := rfl

theorem totalFree_foldl : ∀ (l : List MB) (acc : Nat),
    l.foldl (fun a b => if b.is_free then a + b.size else a) acc = acc + sumFree l := by
  intro l
  induction l with
  | nil => intro acc; rfl
  | cons b t ih =>
      intro acc
      rw [List.foldl_cons, sumFree_cons]
      by_cases hb : b.is_free = true
      · rw [if_pos hb, if_pos hb, ih]; omega
      · rw [if_neg hb, if_neg hb, ih]

theorem getTotalFreeMemory_eq (s : PoolState) : getTotalFreeMemory s = sumFree s.blocks := by
  unfold getTotalFreeMemory
  rw [totalFree_foldl]
  omega

theorem sumFree_accounting (l : List MB) :
    sumFree l + liveLen l + headerSize * freeCount l = blocksLen l := by
  induction l with
  | nil => rfl
  | cons b t ih =>
      rw [sumFree_cons, liveLen_cons, freeCount_cons, blocksLen_cons]
      by_cases hb : b.is_free = true
      · rw [if_pos hb, if_pos hb, if_pos hb]
        have : headerSize * (freeCount t + 1) = headerSize * freeCount t + headerSize := by ring
        omega
      · rw [if_neg hb, if_neg hb, if_neg hb]
        omega

/-! ### Concrete executions used by the claim theorems -/

/-- State of a one-handle 256-byte pool after one 16-byte allocation:
the handle table is exhausted while free arena space remains. -/
def c1State : PoolState := (alloc 256 (initState 256 1) 16).2.2

/-- A 320-byte pool, 4 handles, fresh. -/
def c2s0 : PoolState := initState 320 4

/-- After `alloc(16) -> handle 0`. -/
def c2s1 : PoolState := (alloc 320 c2s0 16).2.2

/-- After `alloc(64) -> handle 1`. -/
def c2s2 : PoolState := (alloc 320 c2s1 64).2.2

/-- After the caller fills handle 1's payload with the byte `0xAA`. -/
def c2s3 : PoolState := writePayload 4 c2s2 1 (List.replicate 64 170)

/-- After `free(0)`: a 16-byte gap precedes handle 1's 64-byte block. -/
def c2s4 : PoolState := (free 4 c2s3 0).2

/-- After `defragment()`: handle 1's block moved from offset 64 to 0. -/
def c2s5 : PoolState := defragment 320 c2s4

/-- A 240-byte pool, 4 handles, fresh. -/
def c3s0 : PoolState := initState 240 4

/-- After `alloc(16) -> handle 0`. -/
def c3s1 : PoolState := (alloc 240 c3s0 16).2.2

/-- After `alloc(16) -> handle 1`. -/
def c3s2 : PoolState := (alloc 240 c3s1 16).2.2

/-- After `alloc(64) -> handle 2`: the arena is now fully allocated. -/
def c3s3 : PoolState := (alloc 240 c3s2 64).2.2

/-- After `free(1)`: one 16-byte free block between two live blocks. -/
def c3s4 : PoolState := (free 4 c3s3 1).2

/-- After `defragment()`: the 64-byte residue is below the minimal
block size, so no trailing free block is created. -/
def c3s5 : PoolState := defragment 240 c3s4

/-- A 320-byte pool with only 2 handles, fresh. -/
def c9s0 : PoolState := initState 320 2

/-- After `alloc(16) -> handle 0`. -/
def c9s1 : PoolState := (alloc 320 c9s0 16).2.2

/-- After `alloc(16) -> handle 1`: the handle table is now full. -/
def c9s2 : PoolState := (alloc 320 c9s1 16).2.2

/-- After a third `alloc(16)`, which returns `HANDLE_TABLE_FULL` but
leaves behind a claimed block whose stale `handle` field is 0. -/
def c9s3 : PoolState := (alloc 320 c9s2 16).2.2

/-- After `free(0)`: handle 0 is back on the free-handle stack. -/
def c9s4 : PoolState := (free 2 c9s3 0).2

/-- After `defragment()`: the orphaned block is collected with its
stale handle field 0, and `handleTable[0]` is repopulated even though
0 sits on the free-handle stack. -/
def c9s5 : PoolState := defragment 320 c9s4

/-- After a second `free(0)`, which now succeeds again and pushes the
value 0 onto the free-handle stack a second time. -/
def c9s6 : PoolState := (free 2 c9s5 0).2

/-- Result of the next `alloc(16)`. -/
def c9s7 : MPErr × Option Nat × PoolState := alloc 320 c9s6 16

/-- Result of the following `alloc(16)`. -/
def c9s8 : MPErr × Option Nat × PoolState := alloc 320 c9s7.2.2 16

/-- C1: on a one-handle 256-byte pool holding one allocation, a second
16-byte `alloc` returns `HANDLE_TABLE_FULL`, yet the pool state is not
left unchanged: the candidate free block (offset 64, size 144) has
been split (front size 16, remainder at offset 128 of size 80) and
marked non-free, while no handle was consumed.  The claim's required
post-state equality fails on the code. -/
theorem C1_handle_table_full_mutates_state :
    (alloc 256 c1State 16).1 = MPErr.HANDLE_TABLE_FULL ∧
    (alloc 256 c1State 16).2.2 ≠ c1State ∧
    c1State.blocks.getD 1 ⟨0, 0, true, 0⟩ = ⟨64, 144, true, 0⟩ ∧
    (alloc 256 c1State 16).2.2.blocks.getD 1 ⟨0, 0, true, 0⟩ = ⟨64, 16, false, 0⟩ ∧
    (alloc 256 c1State 16).2.2.blocks.getD 2 ⟨0, 0, true, 0⟩ = ⟨128, 80, true, 0⟩ ∧
    (alloc 256 c1State 16).2.2.freeHandleCount = c1State.freeHandleCount := by
  decide

/-- C2: on a 320-byte pool, after `alloc(16)`, `alloc(64)`, filling
handle 1's payload with `0xAA`, `free(0)` and `defragment()`, handle 1
is still valid with its pointer moved to offset 48, but the payload
read back through it is no longer the 64 `0xAA` bytes: `defragment`
wrote the trailing free block's header (at offset 112) into the old
payload bytes before the copy phase, so byte 7 now reads 0.  This
refutes the byte-preservation part of the claim. -/
theorem C2_defragment_corrupts_payload :
    readPayload 4 c2s3 1 = some (List.replicate 64 170) ∧
    getPointer 4 c2s5 1 = some 48 ∧
    readPayload 4 c2s5 1 ≠ some (List.replicate 64 170) ∧
    ((readPayload 4 c2s5 1).getD []).getD 7 0 = 0 := by
  decide

/-- C3 counterexample: the state reached on a 240-byte pool by
`alloc(16)`, `alloc(16)`, `alloc(64)`, `free(1)`, `defragment()` has
its blocks summing (sizes plus header overhead) to 176 = 240 - 64, not
to the pool size: `defragment` stranded a 64-byte tail outside every
block, refuting the exact-partition claim. -/
theorem C3_counterexample :
    Reachable 240 4 c3s5 ∧ blocksLen c3s5.blocks + 64 = 240 ∧
    blocksLen c3s5.blocks ≠ 240 :=
  ⟨Reachable.step_defrag _ (Reachable.step_free _ 1 (Reachable.step_alloc _ 64
      (Reachable.step_alloc _ 16 (Reachable.step_alloc _ 16 Reachable.init)))),
   by decide, by decide⟩

/-- C4 counterexample: on a fresh 256-byte pool `getMaxAllocatableSize`
returns 160, yet `alloc(176)` (in bounds, strictly larger) succeeds
instead of returning `ALLOCATION_FAILED`: the single 208-byte free
block serves the whole request without splitting. -/
theorem C4_counterexample :
    getMaxAllocatableSize (initState 256 4) = 160 ∧
    (alloc 256 (initState 256 4) 176).1 = MPErr.SUCCESS := by
  decide

/-- C8 counterexample: on the reachable 240-byte pool state holding
blocks of 16 (live), 16 (free) and 64 (live) bytes,
`getMaxAllocatableSize` is 16 before `defragment()` and 0 after it
(the 64-byte residue is below the minimal block size, so the compacted
pool has no free block at all), refuting monotonicity. -/
theorem C8_counterexample :
    Reachable 240 4 c3s4 ∧
    getMaxAllocatableSize c3s4 = 16 ∧
    getMaxAllocatableSize (defragment 240 c3s4) = 0 :=
  ⟨Reachable.step_free _ 1 (Reachable.step_alloc _ 64
      (Reachable.step_alloc _ 16 (Reachable.step_alloc _ 16 Reachable.init))),
   by decide, by decide⟩

/-- C9: the claim that a handle value is never issued twice while both
allocations are live fails on the code.  With 2 handles and a 320-byte
pool: two allocations take handles 0 and 1; a third `alloc` returns
`HANDLE_TABLE_FULL` after claiming a block whose stale handle field is
0; `free(0)` recycles handle 0; `defragment` re-registers the orphaned
block under handle 0; a second `free(0)` then succeeds and pushes 0
onto the free-handle stack a second time; the next two `alloc` calls
both return handle 0, with neither freed in between. -/
theorem C9_handle_issued_twice :
    (alloc 320 c9s0 16).1 = MPErr.SUCCESS ∧ (alloc 320 c9s0 16).2.1 = some 0 ∧
    (alloc 320 c9s1 16).1 = MPErr.SUCCESS ∧ (alloc 320 c9s1 16).2.1 = some 1 ∧
    (alloc 320 c9s2 16).1 = MPErr.HANDLE_TABLE_FULL ∧
    (free 2 c9s3 0).1 = MPErr.SUCCESS ∧
    (free 2 c9s5 0).1 = MPErr.SUCCESS ∧
    c9s7.1 = MPErr.SUCCESS ∧ c9s7.2.1 = some 0 ∧
    c9s8.1 = MPErr.SUCCESS ∧ c9s8.2.1 = some 0 := by
  decide

/-! ### Evaluation lemmas for coalescing -/

theorem coalesceNext_cons (b1 n : MB) (r2 : List MB) :
    coalesceNext b1 (n :: r2)
      = if n.is_free then ({ b1 with size := b1.size + headerSize + n.size }, r2)
        else (b1, n :: r2) := rfl

theorem coalesceNext_nil (b1 : MB) : coalesceNext b1 [] = (b1, []) := rfl

theorem coalescePrev_nil (c : MB) (rest : List MB) :
    coalescePrev [] c rest = c :: rest := rfl

theorem coalescePrev_concat (pre : List MB) (p c : MB) (rest : List MB) :
    coalescePrev (pre ++ [p]) c rest
      = if p.is_free then pre ++ ({ p with size := p.size + headerSize + c.size } :: rest)
        else (pre ++ [p]) ++ (c :: rest) := by
  unfold coalescePrev
  simp only [List.getLast?_concat, List.dropLast_concat]

theorem setHandle_allocMid_head (sz : Nat) (cur : MB) (h : Nat) :
    ∃ hd tail, setHandle h (allocMid sz cur) = hd :: tail ∧
      hd.off = cur.off ∧ hd.is_free = false ∧ hd.handle = h := by
  by_cases hc : sz + headerSize + minimalBlockSize ≤ cur.size
  · refine ⟨{ cur with size := sz, is_free := false, handle := h },
      [⟨cur.off + headerSize + sz, cur.size - (sz + headerSize), true, 0⟩],
      ?_, rfl, rfl, rfl⟩
    unfold allocMid
    rw [if_pos hc]
    rfl
  · refine ⟨{ cur with is_free := false, handle := h }, [], ?_, rfl, rfl, rfl⟩
    unfold allocMid
    rw [if_neg hc]
    rfl

/-! ### Claim theorems: amended C3, C4, C8 -/

/-- C3 (amended): in every state reachable through `alloc`, `free` and
`defragment` on a pool whose size is a multiple of the alignment, the
block list tiles the arena contiguously from offset 0 (no gaps, no
overlaps, the successor of each block starting exactly at its end, the
last block having no successor), every block size is aligned and
nonzero, and the blocks cover `poolSize` exactly or up to a single
64-byte tail that a `defragment` call can strand when the residue is
below the minimal block size; correspondingly
`getTotalFreeMemory() + Σ live (size + header) + header · #free blocks`
equals that covered footprint rather than always `poolSize`. -/
theorem C3_amended_partition (P M : Nat) (hP16 : P % 16 = 0) (hP : 112 < P)
    (s : PoolState) (hr : Reachable P M s) :
    chainFrom 0 s.blocks ∧
    (blocksLen s.blocks = P ∨ blocksLen s.blocks + 64 = P) ∧
    sizesOK s.blocks ∧
    getTotalFreeMemory s + liveLen s.blocks + headerSize * freeCount s.blocks
      = blocksLen s.blocks := by
  have h := reachable_inv hP16 hP hr
  refine ⟨h.1, h.2.1, h.2.2, ?_⟩
  rw [getTotalFreeMemory_eq]
  exact sumFree_accounting s.blocks

theorem C3_witness :
    chainFrom 0 (initState 240 4).blocks ∧
    (blocksLen (initState 240 4).blocks = 240 ∨ blocksLen (initState 240 4).blocks + 64 = 240) ∧
    sizesOK (initState 240 4).blocks ∧
    getTotalFreeMemory (initState 240 4) + liveLen (initState 240 4).blocks
      + headerSize * freeCount (initState 240 4).blocks
      = blocksLen (initState 240 4).blocks :=
  C3_amended_partition 240 4 (by decide) (by decide) (initState 240 4) Reachable.init

/-- C4 (amended): `alloc` at exactly `getMaxAllocatableSize()` succeeds
whenever that value is positive, within the `INVALID_SIZE` bounds and a
free handle remains; but the failure threshold of the claim is
corrected: `alloc(r)` returns `ALLOCATION_FAILED` exactly when every
free block is smaller than the alignment-rounded request, and requests
strictly larger than `getMaxAllocatableSize()` can still succeed,
because `getMaxAllocatableSize` subtracts a header even for requests
that are served without splitting (see the counterexample). -/
theorem C4_amended_max_allocatable (P : Nat) (s : PoolState)
    (hmax0 : 0 < getMaxAllocatableSize s)
    (hmaxP : getMaxAllocatableSize s ≤ P - headerSize)
    (hcount : s.freeHandleCount ≠ 0) :
    (alloc P s (getMaxAllocatableSize s)).1 = MPErr.SUCCESS ∧
    ∀ r, 0 < r → r ≤ P - headerSize →
      (∀ b ∈ s.blocks, b.is_free = true → b.size < alignUp r) →
      (alloc P s r).1 = MPErr.ALLOCATION_FAILED := by
  constructor
  · have hmod : getMaxAllocatableSize s % 16 = 0 := foldl_gm_mod rfl
    rcases @foldl_gm_achieved s.blocks 0 with h1 | ⟨b, hb, hbf, hbe⟩
    · exfalso
      have h2 : getMaxAllocatableSize s = 0 := h1
      omega
    · have hvb : getMaxAllocatableSize s = fitSize b.size := hbe
      have hle : getMaxAllocatableSize s ≤ b.size := by
        have := fitSize_le b.size
        omega
      unfold alloc
      rw [if_neg (by push_neg; omega)]
      rw [alignUp_eq_self hmod]
      rcases hf : findFit (getMaxAllocatableSize s) s.blocks with _ | r
      · exfalso
        exact findFit_eq_none.mp hf b hb ⟨hbf, hle⟩
      · obtain ⟨pre, cur, rest⟩ := r
        simp only [hf]
        rw [if_neg hcount]
  · intro r hr0 hrP hfail
    unfold alloc
    rw [if_neg (by push_neg; omega)]
    have hnone : findFit (alignUp r) s.blocks = none :=
      findFit_eq_none.mpr (fun b hb hc => by have := hfail b hb hc.1; omega)
    simp only [hnone]

theorem C4_witness :
    (alloc 240 c3s4 (getMaxAllocatableSize c3s4)).1 = MPErr.SUCCESS ∧
    (alloc 240 c3s4 32).1 = MPErr.ALLOCATION_FAILED :=
  ⟨(C4_amended_max_allocatable 240 c3s4 (by decide) (by decide) (by decide)).1,
   (C4_amended_max_allocatable 240 c3s4 (by decide) (by decide) (by decide)).2 32
     (by decide) (by decide) (by decide)⟩

/-- C8 (amended): `getMaxAllocatableSize()` after `defragment()` is at
least its value before, for the same live allocations, provided the
compacted pool retains at least one free block; when the residue after
compaction is at most the minimal block size, `defragment` creates no
trailing free block and `getMaxAllocatableSize()` drops to 0, which can
be less than before (see the counterexample). -/
theorem C8_amended_compaction_monotonic (P : Nat) (s : PoolState)
    (hP16 : P % 16 = 0) (hP : 112 < P) (hinv : Inv P s)
    (hfree : ∃ b ∈ (defragment P s).blocks, b.is_free = true) :
    getMaxAllocatableSize s ≤ getMaxAllocatableSize (defragment P s) := by
  have h48 : headerSize = 48 := rfl
  have h64 : minimalBlockSize = 64 := rfl
  obtain ⟨hc, hl, hsz⟩ := hinv
  have hlivemod : ∀ e ∈ liveOf s.blocks, e.2.1 % 16 = 0 :=
    fun e he => (liveOf_sizes hsz e he).2
  obtain ⟨hrc, hre, hrlen, hrb⟩ := relay_spec (liveOf s.blocks) 0 (by omega) hlivemod
  have hE : (relay 0 (liveOf s.blocks)).2 = liveLen s.blocks := by
    rw [hre, entsLen_liveOf]; omega
  have hEmod : (relay 0 (liveOf s.blocks)).2 % 16 = 0 := by
    rw [hE]; exact liveLen_mod hsz
  have hLF := liveLen_add_freeLen s.blocks
  have hLmod := liveLen_mod hsz
  have hblocks : (defragment P s).blocks
      = (relay 0 (liveOf s.blocks)).1 ++ trailingBlock P (relay 0 (liveOf s.blocks)).2 := rfl
  obtain ⟨bf, hbf, hbffree⟩ := hfree
  rw [hblocks] at hbf
  by_cases hcond : (relay 0 (liveOf s.blocks)).2 < P - minimalBlockSize
  · have htb : trailingBlock P (relay 0 (liveOf s.blocks)).2
        = [⟨(relay 0 (liveOf s.blocks)).2,
            P - ((relay 0 (liveOf s.blocks)).2 + headerSize), true, 0⟩] := by
      unfold trailingBlock
      rw [alignUp_eq_self hEmod, if_pos hcond, if_pos hcond]
    have hafter : getMaxAllocatableSize (defragment P s)
        = fitSize (P - ((relay 0 (liveOf s.blocks)).2 + headerSize)) := by
      show ((defragment P s).blocks).foldl gmStep 0 = _
      rw [hblocks, htb, List.foldl_append, foldl_gm_nofree (fun b hb => (hrb b hb).1)]
      simp [gmStep, Nat.zero_max]
    rw [hafter]
    refine foldl_gm_le (Nat.zero_le _) ?_
    intro b hb hbfree2
    have hTmod : (P - ((relay 0 (liveOf s.blocks)).2 + headerSize)) % 16 = 0 := by
      rw [hE]
      rw [hE] at hcond
      omega
    have hbmod := (hsz b hb).2
    rcases freeLen_of_mem hsz hb hbfree2 with h1 | h1
    · have hd : P - ((relay 0 (liveOf s.blocks)).2 + headerSize) = b.size ∨
          b.size + 64 ≤ P - ((relay 0 (liveOf s.blocks)).2 + headerSize) := by
        rw [hE]
        rw [hE] at hcond
        omega
      rcases hd with h2 | h2
      · rw [h2]
      · exact fitSize_mono64 hbmod hTmod h2
    · have h2 : b.size + 64 ≤ P - ((relay 0 (liveOf s.blocks)).2 + headerSize) := by
        rw [hE]
        rw [hE] at hcond
        omega
      exact fitSize_mono64 hbmod hTmod h2
  · exfalso
    have htb : trailingBlock P (relay 0 (liveOf s.blocks)).2 = [] := by
      unfold trailingBlock
      rw [if_neg hcond]
    rw [htb, List.append_nil] at hbf
    have := (hrb bf hbf).1
    rw [hbffree] at this
    cases this

theorem C8_witness :
    getMaxAllocatableSize (initState 240 4)
      ≤ getMaxAllocatableSize (defragment 240 (initState 240 4)) :=
  C8_amended_compaction_monotonic 240 (initState 240 4) (by decide) (by decide)
    (by decide) (by decide)

/-! ### Claim theorems: C5, C6, C7, C10 -/

/-- C5: a successful `alloc` selects the first free block in address
order whose size is at least the alignment-rounded request (no earlier
block is both free and large enough), and replaces it either by an
exact-size claimed front block plus a new free remainder (when the
block holds the rounded request plus a header plus a minimal block) or
by the whole block claimed with its size unchanged. -/
theorem C5_first_fit_split (P : Nat) (s : PoolState) (req h : Nat) (s1 : PoolState)
    (halloc : alloc P s req = (MPErr.SUCCESS, some h, s1)) :
    ∃ pre cur rest, s.blocks = pre ++ cur :: rest ∧
      cur.is_free = true ∧ alignUp req ≤ cur.size ∧
      (∀ b ∈ pre, ¬(b.is_free = true ∧ alignUp req ≤ b.size)) ∧
      s1.blocks = pre
        ++ (if alignUp req + headerSize + minimalBlockSize ≤ cur.size then
              [{ cur with size := alignUp req, is_free := false, handle := h },
               ⟨cur.off + headerSize + alignUp req,
                 cur.size - (alignUp req + headerSize), true, 0⟩]
            else [{ cur with is_free := false, handle := h }])
        ++ rest := by
  obtain ⟨pre, cur, rest, hf, hcount, hh, hguard, hs1⟩ := alloc_success_spec halloc
  obtain ⟨hdec, hfree2, hle, hpre⟩ := findFit_eq_some hf
  refine ⟨pre, cur, rest, hdec, hfree2, hle, hpre, ?_⟩
  rw [hs1]
  show pre ++ setHandle h (allocMid (alignUp req) cur) ++ rest = _
  by_cases hsplit : alignUp req + headerSize + minimalBlockSize ≤ cur.size
  · rw [if_pos hsplit]
    unfold allocMid
    rw [if_pos hsplit]
    rfl
  · rw [if_neg hsplit]
    unfold allocMid
    rw [if_neg hsplit]
    rfl

set_option maxRecDepth 100000 in
theorem C5_witness :
    ∃ pre cur rest, (initState 256 4).blocks = pre ++ cur :: rest ∧
      cur.is_free = true ∧ alignUp 20 ≤ cur.size ∧
      (∀ b ∈ pre, ¬(b.is_free = true ∧ alignUp 20 ≤ b.size)) ∧
      (alloc 256 (initState 256 4) 20).2.2.blocks = pre
        ++ (if alignUp 20 + headerSize + minimalBlockSize ≤ cur.size then
              [{ cur with size := alignUp 20, is_free := false, handle := 0 },
               ⟨cur.off + headerSize + alignUp 20,
                 cur.size - (alignUp 20 + headerSize), true, 0⟩]
            else [{ cur with is_free := false, handle := 0 }])
        ++ rest :=
  C5_first_fit_split 256 (initState 256 4) 20 0 (alloc 256 (initState 256 4) 20).2.2
    (by decide)

/-- C6: on a successful `free` of a block with both a previous and a
next neighbor, the freed block is merged with the next neighbor iff
that one is free (absorbing its header into the size) and then with
the previous neighbor iff that one is free (the previous block
becoming the merged block); both merges happen in the same call, so
freeing between two free neighbors yields a single free block
spanning all three regions and both headers. -/
theorem C6_free_coalesces (M : Nat) (s : PoolState) (h : Nat) (pre : List MB)
    (p c n : MB) (rest : List MB)
    (hblocks : s.blocks = pre ++ p :: c :: n :: rest)
    (hchain : chainFrom 0 s.blocks)
    (hM : h < M)
    (htable : s.handleTable.getD h none = some c.off)
    (hcfree : c.is_free = false) :
    (free M s h).1 = MPErr.SUCCESS ∧
    (free M s h).2.blocks = pre
      ++ (if p.is_free then
            (if n.is_free then
              [{ p with size := p.size + headerSize + (c.size + headerSize + n.size) }]
             else [{ p with size := p.size + headerSize + c.size }, n])
          else
            (if n.is_free then [p, ⟨c.off, c.size + headerSize + n.size, true, 0⟩]
             else [p, ⟨c.off, c.size, true, 0⟩, n]))
      ++ rest := by
  have hdecomp : s.blocks = (pre ++ [p]) ++ c :: n :: rest := by rw [hblocks]; simp
  have hpre_ne : ∀ b ∈ pre ++ [p], b.off ≠ c.off := by
    rw [hdecomp] at hchain
    rw [chainFrom_append] at hchain
    intro b hb
    have h1 := chainFrom_bounds hchain.1 b hb
    have h2 := ((chainFrom_cons _ _ _).mp hchain.2).1
    have h48 : headerSize = 48 := rfl
    omega
  have hfo : findByOff c.off s.blocks = some (pre ++ [p], c, n :: rest) := by
    rw [hdecomp]
    exact findByOff_append hpre_ne rfl
  have heval := free_eval hM htable hfo hcfree
  rw [heval]
  refine ⟨rfl, ?_⟩
  show coalescePrev (pre ++ [p])
      (coalesceNext { c with is_free := true, handle := 0 } (n :: rest)).1
      (coalesceNext { c with is_free := true, handle := 0 } (n :: rest)).2 = _
  rcases hn : n.is_free <;> rcases hp : p.is_free <;>
    simp [coalesceNext_cons, coalescePrev_concat, hn, hp]

set_option maxRecDepth 100000 in
theorem C6_witness :
    (free 4 (free 4 (free 4 c3s3 0).2 2).2 1).1 = MPErr.SUCCESS ∧
    (free 4 (free 4 (free 4 c3s3 0).2 2).2 1).2.blocks = []
      ++ (if (MB.mk 0 16 true 0).is_free then
            (if (MB.mk 128 64 true 0).is_free then
              [{ MB.mk 0 16 true 0 with
                  size := (MB.mk 0 16 true 0).size + headerSize
                    + ((MB.mk 64 16 false 1).size + headerSize + (MB.mk 128 64 true 0).size) }]
             else [{ MB.mk 0 16 true 0 with
                  size := (MB.mk 0 16 true 0).size + headerSize + (MB.mk 64 16 false 1).size },
               MB.mk 128 64 true 0])
          else
            (if (MB.mk 128 64 true 0).is_free then
              [MB.mk 0 16 true 0,
               ⟨(MB.mk 64 16 false 1).off,
                 (MB.mk 64 16 false 1).size + headerSize + (MB.mk 128 64 true 0).size, true, 0⟩]
             else [MB.mk 0 16 true 0, ⟨(MB.mk 64 16 false 1).off, (MB.mk 64 16 false 1).size, true, 0⟩,
               MB.mk 128 64 true 0]))
      ++ [] :=
  C6_free_coalesces 4 (free 4 (free 4 c3s3 0).2 2).2 1 []
    (MB.mk 0 16 true 0) (MB.mk 64 16 false 1) (MB.mk 128 64 true 0) []
    (by decide) (by decide) (by decide) (by decide) (by decide)

/-- C7: after a successful `alloc` that returned handle `h`, the first
`free(h)` returns `SUCCESS` and nulls the table slot, so an immediate
second `free(h)` returns `INVALID_HANDLE`; and `DOUBLE_FREE_ATTEMPT`
is returned only when the handle's table slot references a block that
is already marked free. -/
theorem C7_double_free_returns_invalid (P M : Nat) (s : PoolState) (req hnd : Nat)
    (s1 s' : PoolState) (h' : Nat)
    (hchain : chainFrom 0 s.blocks)
    (htlen : s.handleTable.length = M)
    (hstack : ∀ i, i < s.freeHandleCount → s.freeHandles.getD i 0 < M)
    (halloc : alloc P s req = (MPErr.SUCCESS, some hnd, s1)) :
    (free M s1 hnd).1 = MPErr.SUCCESS ∧
    (free M (free M s1 hnd).2 hnd).1 = MPErr.INVALID_HANDLE ∧
    ((free M s' h').1 = MPErr.DOUBLE_FREE_ATTEMPT →
      ∃ o pre b rest, s'.handleTable.getD h' none = some o ∧
        findByOff o s'.blocks = some (pre, b, rest) ∧ b.is_free = true) := by
  obtain ⟨pre, cur, rest, hf, hcount, hh, hguard, hs1⟩ := alloc_success_spec halloc
  obtain ⟨hdec, hfree2, hle, hpre_nofit⟩ := findFit_eq_some hf
  have hM : hnd < M := by
    rw [hh]
    exact hstack _ (by omega)
  have htable1 : s1.handleTable.getD hnd none = some cur.off := by
    rw [hs1]
    show (s.handleTable.set hnd (some cur.off)).getD hnd none = some cur.off
    exact getD_set_self _ _ _ _ (by rw [htlen]; exact hM)
  have hpre_ne : ∀ b ∈ pre, b.off ≠ cur.off := by
    rw [hdec] at hchain
    rw [chainFrom_append] at hchain
    intro b hb
    have h1 := chainFrom_bounds hchain.1 b hb
    have h2 := ((chainFrom_cons _ _ _).mp hchain.2).1
    have h48 : headerSize = 48 := rfl
    omega
  obtain ⟨hd, tail, hmid, hhdoff, hhdfree, -⟩ := setHandle_allocMid_head (alignUp req) cur hnd
  have hfo1 : findByOff cur.off s1.blocks = some (pre, hd, tail ++ rest) := by
    rw [hs1]
    show findByOff cur.off (pre ++ setHandle hnd (allocMid (alignUp req) cur) ++ rest) = _
    rw [hmid]
    have he : pre ++ (hd :: tail) ++ rest = pre ++ hd :: (tail ++ rest) := by simp
    rw [he]
    exact findByOff_append hpre_ne hhdoff
  have heval1 := free_eval hM htable1 hfo1 hhdfree
  refine ⟨by rw [heval1], ?_, ?_⟩
  · have htable2 : ((free M s1 hnd).2).handleTable.getD hnd none = none := by
      rw [heval1]
      show (s1.handleTable.set hnd none).getD hnd none = none
      refine getD_set_self _ _ _ _ ?_
      rw [hs1]
      show (s.handleTable.set hnd (some cur.off)).length > hnd
      rw [List.length_set, htlen]
      exact hM
    rw [free_invalid (Or.inr htable2)]
  · intro hdf
    unfold free at hdf
    split at hdf
    · cases hdf
    · split at hdf
      · cases hdf
      · rename_i o ht
        split at hdf
        · cases hdf
        · rename_i pre2 b2 rest2 hfo2
          split at hdf
          · rename_i hbf2
            exact ⟨o, pre2, b2, rest2, ht, hfo2, hbf2⟩
          · cases hdf

set_option maxRecDepth 100000 in
theorem C7_witness :
    (free 4 (alloc 256 (initState 256 4) 16).2.2 0).1 = MPErr.SUCCESS ∧
    (free 4 (free 4 (alloc 256 (initState 256 4) 16).2.2 0).2 0).1 = MPErr.INVALID_HANDLE ∧
    ((free 4 (PoolState.mk [⟨0, 192, true, 0⟩] [some 0, none, none, none] [3, 2, 1, 0] 4
        (List.replicate 240 0)) 0).1 = MPErr.DOUBLE_FREE_ATTEMPT →
      ∃ o pre b rest,
        (PoolState.mk [⟨0, 192, true, 0⟩] [some 0, none, none, none] [3, 2, 1, 0] 4
          (List.replicate 240 0)).handleTable.getD 0 none = some o ∧
        findByOff o (PoolState.mk [⟨0, 192, true, 0⟩] [some 0, none, none, none] [3, 2, 1, 0] 4
          (List.replicate 240 0)).blocks = some (pre, b, rest) ∧ b.is_free = true) :=
  C7_double_free_returns_invalid 256 4 (initState 256 4) 16 0
    (alloc 256 (initState 256 4) 16).2.2
    (PoolState.mk [⟨0, 192, true, 0⟩] [some 0, none, none, none] [3, 2, 1, 0] 4
      (List.replicate 240 0)) 0
    (by decide) (by decide) (by decide) (by decide)

/-- The handle-stack discipline of the fresh pool after `j` successful
allocations and no frees: `freeHandles[i] = maxHandles - 1 - i` on the
untouched prefix and `freeHandleCount = maxHandles - j`. -/
def StackFresh (M : Nat) (s : PoolState) (j : Nat) : Prop :=
  j ≤ M ∧ s.freeHandleCount = M - j ∧ s.freeHandles.length = M ∧
  ∀ i, i < M - j → s.freeHandles.getD i 0 = M - 1 - i

/-- C10: handle issuance is deterministic.  On a fresh pool the stack
discipline `StackFresh` holds with `j = 0`; every successful `alloc`
from a `StackFresh` state returns exactly handle `j` and re-establishes
the discipline at `j + 1` (so successive allocations return 0, 1, 2,
...); and after any successful `free(hdl)` (with the stack not already
full), the next successful `alloc` returns that same `hdl` (LIFO
reissue). -/
theorem C10_handle_order (P M : Nat) :
    StackFresh M (initState P M) 0 ∧
    (∀ (s : PoolState) (j req hh : Nat) (s1 : PoolState), StackFresh M s j →
      alloc P s req = (MPErr.SUCCESS, some hh, s1) → hh = j ∧ StackFresh M s1 (j + 1)) ∧
    (∀ (s : PoolState) (hdl : Nat) (s1 : PoolState),
      s.freeHandleCount < s.freeHandles.length →
      free M s hdl = (MPErr.SUCCESS, s1) →
      ∀ (req h2 : Nat) (s2 : PoolState),
        alloc P s1 req = (MPErr.SUCCESS, some h2, s2) → h2 = hdl) := by
  refine ⟨⟨Nat.zero_le _, by show M = M - 0; omega, by simp [initState], ?_⟩, ?_, ?_⟩
  · intro i hi
    show (((List.range M).map (fun k => M - k - 1)).getD i 0) = M - 1 - i
    rw [List.getD_eq_getElem?_getD, List.getElem?_map, List.getElem?_range (by omega : i < M)]
    show M - i - 1 = M - 1 - i
    omega
  · intro s j req hh s1 hfresh halloc
    obtain ⟨hjM, hcount, hlen, hvals⟩ := hfresh
    obtain ⟨pre, cur, rest, hf, hcount0, hhh, hguard, hs1⟩ := alloc_success_spec halloc
    have hj : j < M := by omega
    have hup : hh = j := by
      rw [hhh, hcount, hvals (M - j - 1) (by omega)]
      omega
    refine ⟨hup, by omega, ?_, ?_, ?_⟩
    · rw [hs1]
      show s.freeHandleCount - 1 = M - (j + 1)
      omega
    · rw [hs1]
      show s.freeHandles.length = M
      exact hlen
    · intro i hi
      rw [hs1]
      show s.freeHandles.getD i 0 = M - 1 - i
      exact hvals i (by omega)
  · intro s hdl s1 hlt hfree req h2 s2 halloc2
    obtain ⟨o, pre, b, rest, hM2, ht, hfo, hbf, hs1⟩ := free_success_spec hfree
    obtain ⟨pre2, cur2, rest2, hf2, hcount2, hh2, hguard2, hs2⟩ := alloc_success_spec halloc2
    rw [hh2, hs1]
    show (s.freeHandles.set s.freeHandleCount hdl).getD (s.freeHandleCount + 1 - 1) 0 = hdl
    have he : s.freeHandleCount + 1 - 1 = s.freeHandleCount := by omega
    rw [he]
    exact getD_set_self _ _ _ _ hlt

set_option maxRecDepth 100000 in
theorem C10_witness :
    (0 = 0 ∧ StackFresh 4 (alloc 240 c3s0 16).2.2 (0 + 1)) ∧ 1 = 1 :=
  ⟨(C10_handle_order 240 4).2.1 c3s0 0 16 0 (alloc 240 c3s0 16).2.2
      (C10_handle_order 240 4).1 (by decide),
   (C10_handle_order 240 4).2.2 c3s3 1 c3s4 (by decide) (by decide) 16 1
      (alloc 240 c3s4 16).2.2 (by decide)⟩

end MemPool
